import Mathlib

/-!
Verification of the `ddalg` interval-tree library (`src/ddalg/itree/_itree.py`
and `src/ddalg/itree/_tree.py`) against its natural-language specification.

Python numeric values (interval endpoints, query positions, coverages,
margins) are embedded as exact fractions `Ddalg.Q`: an integer numerator
together with a positive denominator (stored as `dm1 = denominator - 1`, so
every value of the type is a genuine rational and no invariant is needed).
Comparisons are by cross multiplication, and all operations are structurally
recursive, hence kernel-computable.

Python exceptions are embedded as `Except PyErr`; the recursion limit of the
interpreter is embedded as explicit fuel, with fuel exhaustion standing for
`RecursionError`.
-/

namespace Ddalg

/-- An exact rational: numerator `num`, denominator `dm1 + 1`. -/
structure Q where
  num : Int
  dm1 : Nat
deriving DecidableEq, Repr

namespace Q

/-- The (always positive) denominator. -/
def den (q : Q) : Nat := q.dm1 + 1

/-- Build a `Q` from numerator and positive denominator (`d = 0` is mapped
to denominator 1; no operation below ever passes 0). -/
def mk2 (n : Int) (d : Nat) : Q := ⟨n, d - 1⟩

def ofInt (n : Int) : Q := ⟨n, 0⟩

instance (n : Nat) : OfNat Q n := ⟨⟨(n : Int), 0⟩⟩

def add (a b : Q) : Q := mk2 (a.num * b.den + b.num * a.den) (a.den * b.den)

def neg (a : Q) : Q := ⟨-a.num, a.dm1⟩

def sub (a b : Q) : Q := add a (neg b)

def mul (a b : Q) : Q := mk2 (a.num * b.num) (a.den * b.den)

/-- Division by 2 (the only division the sources perform on fractions). -/
def half (a : Q) : Q := mk2 a.num (a.den * 2)

instance : Add Q := ⟨add⟩
instance : Neg Q := ⟨neg⟩
instance : Sub Q := ⟨sub⟩
instance : Mul Q := ⟨mul⟩

/-- Numeric order: cross multiplication against the positive denominators. -/
protected def le (a b : Q) : Prop := a.num * (b.den : Int) ≤ b.num * (a.den : Int)

protected def lt (a b : Q) : Prop := a.num * (b.den : Int) < b.num * (a.den : Int)

instance : LE Q := ⟨Q.le⟩
instance : LT Q := ⟨Q.lt⟩

instance : DecidableRel (fun a b : Q => a ≤ b) := fun a b =>
  inferInstanceAs (Decidable (a.num * (b.den : Int) ≤ b.num * (a.den : Int)))

instance : DecidableRel (fun a b : Q => a < b) := fun a b =>
  inferInstanceAs (Decidable (a.num * (b.den : Int) < b.num * (a.den : Int)))

/-- Numeric equality (Python `==` between numbers): cross multiplication. -/
def qeq (a b : Q) : Bool := a.num * (b.den : Int) == b.num * (a.den : Int)

/-- Floor to an integer, as a fraction (`np.floor` on an exact value). -/
def floorQ (a : Q) : Q := ofInt (a.num.fdiv (a.den : Int))

theorem den_pos (q : Q) : 0 < (q.den : Int) := by
  simp [den]

theorem qeq_refl (a : Q) : qeq a a = true := by
  simp [qeq]

theorem qeq_symm {a b : Q} (h : qeq a b = true) : qeq b a = true := by
  simp only [qeq, beq_iff_eq] at h ⊢
  omega

theorem qeq_trans {a b c : Q} (h1 : qeq a b = true) (h2 : qeq b c = true) :
    qeq a c = true := by
  simp only [qeq, beq_iff_eq] at h1 h2 ⊢
  have hb := b.den_pos
  have hmul : a.num * (c.den : Int) * (b.den : Int)
      = c.num * (a.den : Int) * (b.den : Int) := by
    calc a.num * (c.den : Int) * (b.den : Int)
        = a.num * (b.den : Int) * (c.den : Int) := by ring
      _ = b.num * (a.den : Int) * (c.den : Int) := by rw [h1]
      _ = b.num * (c.den : Int) * (a.den : Int) := by ring
      _ = c.num * (b.den : Int) * (a.den : Int) := by rw [h2]
      _ = c.num * (a.den : Int) * (b.den : Int) := by ring
  exact mul_right_cancel₀ (by omega) hmul

end Q

/-- An interval value (`ddalg` `Interval` subclass instance): numeric `begin`
and `end` bounds plus a `tag` modelling Python object identity, so that
distinct objects with equal bounds (duplicates) can be told apart.  Python's
`Interval.__eq__`/`__hash__` ignore the identity and are modelled by
`Interval.beq` below. -/
structure Interval where
  tag : Nat
  begin : Q
  «end» : Q
deriving DecidableEq, Repr

namespace Interval

/-- Source `Interval.__eq__`: structural equality on `(begin, end)` only. -/
def beq (a b : Interval) : Bool := Q.qeq a.begin b.begin && Q.qeq a.«end» b.«end»

/-- Source `Interval.contains`: `self.end >= value > self.begin`. -/
def containsB (self : Interval) (value : Q) : Bool :=
  decide (value ≤ self.«end») && decide (self.begin < value)

/-- Source `Interval.intersects`: `end > self.begin and begin < self.end`. -/
def intersectsB (self : Interval) (b e : Q) : Bool :=
  decide (self.begin < e) && decide (b < self.«end»)

/-- Source `Interval.__lt__`: primary key `begin`, secondary key `end`. -/
def ltB (a b : Interval) : Bool :=
  if Q.qeq a.begin b.begin then decide (a.«end» < b.«end»)
  else decide (a.begin < b.begin)

theorem beq_refl (a : Interval) : beq a a = true := by
  simp [beq, Q.qeq_refl]

theorem beq_symm {a b : Interval} (h : beq a b = true) : beq b a = true := by
  simp only [beq, Bool.and_eq_true] at h ⊢
  exact ⟨Q.qeq_symm h.1, Q.qeq_symm h.2⟩

theorem beq_trans {a b c : Interval} (h1 : beq a b = true) (h2 : beq b c = true) :
    beq a c = true := by
  simp only [beq, Bool.and_eq_true] at h1 h2 ⊢
  exact ⟨Q.qeq_trans h1.1 h2.1, Q.qeq_trans h1.2 h2.2⟩

end Interval

/-- Key order used by Python's `sorted(inner.keys())`: `__lt__` or equal
bounds (the keys being sorted are pairwise distinct in bounds, so any
order-correct sort yields the same list as Python's stable sort). -/
def keyLe (a b : Interval) : Prop := Interval.ltB a b = true ∨ Interval.beq a b = true

instance : DecidableRel keyLe := fun a b =>
  inferInstanceAs (Decidable (Interval.ltB a b = true ∨ Interval.beq a b = true))

/-- Numeric order on fractions as a sorting relation for `np.sort`. -/
def qle (a b : Q) : Prop := a ≤ b

instance : DecidableRel qle := fun a b => inferInstanceAs (Decidable (a ≤ b))

/-- Collapse numerically equal neighbours of a sorted position list
(`np.unique` = sort + deduplicate). -/
def dedupSorted : List Q → List Q
  | [] => []
  | [x] => [x]
  | x :: y :: rest =>
      if Q.qeq x y then dedupSorted (y :: rest) else x :: dedupSorted (y :: rest)

/-- Source `np.median` of a sorted list: middle element, or the mean of the two
middle elements for an even length. -/
def median (u : List Q) : Q :=
  if u.length % 2 = 1 then u.getD (u.length / 2) 0
  else Q.half (u.getD (u.length / 2 - 1) 0 + u.getD (u.length / 2) 0)

/-- Source `get_center`: floor of the median of the sorted, de-duplicated list of
all begin/end endpoints of the given intervals. -/
def get_center (items : List Interval) : Q :=
  let positions := items.flatMap fun x => [x.begin, x.«end»]
  let sorted_positions := dedupSorted (List.insertionSort qle positions)
  Q.floorQ (median sorted_positions)

/-- The partition loop of `IntervalNode.__init__`: each interval goes to
exactly one of (left bucket, inner dict, right bucket), in input order. -/
def partition (c : Q) : List Interval → List Interval × List Interval × List Interval
  | [] => ([], [], [])
  | i :: rest =>
      let t3 := partition c rest
      if i.«end» < c then (i :: t3.1, t3.2.1, t3.2.2)
      else if c ≤ i.begin then (t3.1, t3.2.1, i :: t3.2.2)
      else (t3.1, i :: t3.2.1, t3.2.2)

/-- First-occurrence representatives of the distinct `(begin, end)` keys of
a list (the keys of the `defaultdict` built by the partition loop). -/
def dedupKeys : List Interval → List Interval
  | [] => []
  | x :: xs => x :: (dedupKeys xs).filter fun j => !(Interval.beq j x)

/-- The node's ordered map: distinct keys sorted ascending by `(begin, end)`,
each paired with the sub-list of inner intervals sharing its bounds, in
input order (`for interval in sorted(inner.keys()): ...`). -/
def groupSort (inner : List Interval) : List (Interval × List Interval) :=
  (List.insertionSort keyLe (dedupKeys inner)).map
    fun k => (k, inner.filter fun i => Interval.beq i k)

/-- A tree node.  `nil` stands for Python `None`; a node built from an empty
input list has an empty map and no `_center` attribute (`center = none`). -/
inductive IntervalNode where
  | nil : IntervalNode
  | mk (intervals : List (Interval × List Interval)) (center : Option Q)
      (left right : IntervalNode) : IntervalNode
deriving DecidableEq, Repr

/-- Python exceptions raised by the sources; fuel exhaustion models the
interpreter's recursion limit. -/
inductive PyErr where
  | recursionError
  | attributeError
  | valueError
deriving DecidableEq, Repr

namespace IntervalNode

/-- Python truthiness of a node reference: `None` is falsy, and a node is
falsy exactly when its `__len__` — the size of its own map — is zero. -/
def truthy : IntervalNode → Bool
  | nil => false
  | mk intervals _ _ _ => !intervals.isEmpty

/-- Source `IntervalNode.__init__` with explicit recursion fuel: an empty input
yields the empty node (no `_center` set); otherwise the input is partitioned
around `get_center` and children are built from the non-empty buckets. -/
def build : Nat → List Interval → Except PyErr IntervalNode
  | _, [] => .ok (mk [] none nil nil)
  | 0, _ :: _ => .error .recursionError
  | fuel + 1, i :: rest =>
      let c := get_center (i :: rest)
      let buckets := partition c (i :: rest)
      (if buckets.1.isEmpty then pure nil else build fuel buckets.1) >>= fun lnode =>
      (if buckets.2.2.isEmpty then pure nil else build fuel buckets.2.2) >>= fun rnode =>
      pure (mk (groupSort buckets.2.1) (some c) lnode rnode)

/-- All interval values stored in a subtree (left, own map, right). -/
def allIntervals : IntervalNode → List Interval
  | nil => []
  | mk intervals _ l r =>
      l.allIntervals ++ (intervals.flatMap fun e => e.2) ++ r.allIntervals

/-- The early-exit scan of a node's own map in `IntervalNode.search`:
emit the items of every key containing `position`; break at the first key
with `begin > position`. -/
def scanContains : List (Interval × List Interval) → Q → List Interval
  | [], _ => []
  | (entry, items) :: rest, position =>
      if entry.containsB position then items ++ scanContains rest position
      else if position < entry.begin then []
      else scanContains rest position

/-- Source `IntervalNode.search`.  Reading `self._center` on an empty node raises
`AttributeError` (the attribute is never set for an empty input); child
recursion is guarded by Python truthiness of the child reference. -/
def search : IntervalNode → Q → Except PyErr (List Interval)
  | nil, _ => .error .attributeError
  | mk intervals center l r, position => do
      let results := scanContains intervals position
      match center with
      | none => .error .attributeError
      | some c =>
          if position < c ∧ truthy l then do
            return results ++ (← l.search position)
          else if c ≤ position ∧ truthy r then do
            return results ++ (← r.search position)
          else
            return results

/-- The early-exit scan of a node's own map in `IntervalNode.get_overlaps`:
emit the items of every key intersecting the query; break at the first key
with `begin >= end`. -/
def scanIntersects : List (Interval × List Interval) → Q → Q → List Interval
  | [], _, _ => []
  | (entry, items) :: rest, b, e =>
      if entry.intersectsB b e then items ++ scanIntersects rest b e
      else if e ≤ entry.begin then []
      else scanIntersects rest b e

/-- Source `IntervalNode.get_overlaps`: scan the own map, then visit the left child
if `begin <= center` and the right child if `end > center`, each guarded by
Python truthiness of the child reference. -/
def get_overlaps : IntervalNode → Q → Q → Except PyErr (List Interval)
  | nil, _, _ => .error .attributeError
  | mk intervals center l r, b, e => do
      let results := scanIntersects intervals b e
      match center with
      | none => .error .attributeError
      | some c => do
          let results ← if b ≤ c ∧ truthy l then do
              pure (results ++ (← l.get_overlaps b e))
            else pure results
          let results ← if c < e ∧ truthy r then do
              pure (results ++ (← r.get_overlaps b e))
            else pure results
          return results

end IntervalNode

instance {ε α : Type} [DecidableEq ε] [DecidableEq α] : DecidableEq (Except ε α) :=
  fun a b =>
    match a, b with
    | .ok x, .ok y => decidable_of_iff (x = y) (by simp)
    | .error x, .error y => decidable_of_iff (x = y) (by simp)
    | .ok _, .error _ => isFalse (by simp)
    | .error _, .ok _ => isFalse (by simp)

/-- The mutable tree container of `_itree.py`: backing sequence, current
root, in-sync flag and cached size. -/
structure IntervalTree where
  _intervals : List Interval
  _head : IntervalNode
  _in_sync : Bool
  _size : Nat
deriving DecidableEq, Repr

/-- Modelled from the spec: the boundary-margin helper `get_boundary_margin`
lives in `ddalg.utils` / `ddalg.metrics.interval`, which are not part of the
sources; per the spec it is a pure symmetric margin, monotonically
non-increasing in `coverage` and 0 at `coverage = 1`, and the worked
examples (margin 1 at coverage 0.98 and margin 2.5 at coverage 0.95 for a
query of length 100) pin it to `(end - begin) * (1 - coverage) / 2`. -/
def get_boundary_margin (b e coverage : Q) : Q :=
  Q.half ((e - b) * (1 - coverage))

namespace IntervalTree

/-- Source `IntervalTree.__init__`: builds the root eagerly from the given list. -/
def ofList (fuel : Nat) (intervals : List Interval) : Except PyErr IntervalTree := do
  let head ← IntervalNode.build fuel intervals
  return ⟨intervals, head, true, intervals.length⟩

/-- Source `IntervalTree.build`: no-op when in sync, otherwise reconstructs the
root from the full backing sequence, resets the size and the flag. -/
def buildStep (fuel : Nat) (t : IntervalTree) : Except PyErr IntervalTree :=
  if t._in_sync then .ok t
  else do
    let head ← IntervalNode.build fuel t._intervals
    return ⟨t._intervals, head, true, t._intervals.length⟩

/-- Source `IntervalTree.insert`: append to the backing sequence and mark the tree
out of sync; the node structure is not touched. -/
def insert (t : IntervalTree) (interval : Interval) : IntervalTree :=
  { t with _intervals := t._intervals ++ [interval], _in_sync := false }

/-- Source `IntervalTree.search`: rebuild if needed, then query the root. -/
def search (fuel : Nat) (t : IntervalTree) (position : Q) :
    Except PyErr (List Interval) := do
  let t ← t.buildStep fuel
  t._head.search position

/-- Source `IntervalTree.get_overlaps`: rebuild if needed, then query the root. -/
def get_overlaps (fuel : Nat) (t : IntervalTree) (b e : Q) :
    Except PyErr (List Interval) := do
  let t ← t.buildStep fuel
  t._head.get_overlaps b e

/-- Source `IntervalTree.fuzzy_query`.  The guard transcribes the Python chained
comparison `0 < coverage > 1` literally: it raises `ValueError` only when
both `0 < coverage` and `coverage > 1` hold.  Then the tree is rebuilt, the
overlap query runs over the margin-widened distal range, and the results
are filtered against the margin-narrowed proximal bounds. -/
def fuzzy_query (fuel : Nat) (t : IntervalTree) (b e coverage : Q) :
    Except PyErr (List Interval) :=
  if 0 < coverage ∧ 1 < coverage then .error .valueError
  else do
    let t ← t.buildStep fuel
    let margin := get_boundary_margin b e coverage
    let results ← IntervalTree.get_overlaps fuel t (b - margin) (e + margin)
    return results.filter fun interval =>
      decide (interval.begin ≤ b + margin) && decide (e - margin ≤ interval.«end»)

/-- Source `IntervalTree.__iter__` of `_itree.py`: returns the tree object itself. -/
def iterSelf (t : IntervalTree) : IntervalTree := t

/-- Outcome of one call of the Python iterator protocol: either a yielded
value (`None` is a value) or a `StopIteration`. -/
inductive PyNext where
  | value (v : Option Interval)
  | stopIteration
deriving DecidableEq, Repr

/-- Source `IntervalTree.__next__` of `_itree.py`: its body is `pass`, so every
call returns `None` and no `StopIteration` is ever raised. -/
def nextImpl (_ : IntervalTree) : PyNext := .value none

end IntervalTree

namespace IntervalNode

/-- Source `node.left`, with `None` for the `nil` reference. -/
def leftOf : IntervalNode → IntervalNode
  | nil => nil
  | mk _ _ l _ => l

/-- Source `node.right`, with `None` for the `nil` reference. -/
def rightOf : IntervalNode → IntervalNode
  | nil => nil
  | mk _ _ _ r => r

/-- The interval values of a node's own map, in map order. -/
def ownItems : IntervalNode → List Interval
  | nil => []
  | mk intervals _ _ _ => intervals.flatMap fun e => e.2

/-- Elementwise Python `==` of two lists of intervals. -/
def listBeqI : List Interval → List Interval → Bool
  | [], [] => true
  | a :: as1, b :: bs => Interval.beq a b && listBeqI as1 bs
  | _, _ => false

/-- Source `OrderedDict.__eq__` between two node maps: order-sensitive equality of
the `(key, value-list)` sequences, with `Interval.__eq__` on both sides. -/
def entriesBeq : List (Interval × List Interval) → List (Interval × List Interval) → Bool
  | [], [] => true
  | (k1, v1) :: r1, (k2, v2) :: r2 =>
      Interval.beq k1 k2 && listBeqI v1 v2 && entriesBeq r1 r2
  | _, _ => false

/-- Source `IntervalNode.__eq__`: compares the maps, then the left children, then
the right children (short-circuiting like Python `and`).  Comparing a node
against `None` evaluates `None.intervals` and raises `AttributeError`. -/
def beqNode : IntervalNode → IntervalNode → Except PyErr Bool
  | nil, nil => .ok true
  | nil, mk _ _ _ _ => .error .attributeError
  | mk _ _ _ _, nil => .error .attributeError
  | mk ivs1 _ l1 r1, mk ivs2 _ l2 r2 =>
      if entriesBeq ivs1 ivs2 then do
        let bl ← beqNode l1 l2
        if bl then beqNode r1 r2 else pure false
      else pure false

/-- Source `IntervalNode.minimum` as a walk that records the ancestor chain (the
Python `parent` back-references): descend via `left` while the left child
reference is truthy. -/
def minimumZ : IntervalNode → List IntervalNode → IntervalNode × List IntervalNode
  | nil, anc => (nil, anc)
  | mk ivs c l r, anc =>
      if truthy l then minimumZ l (mk ivs c l r :: anc) else (mk ivs c l r, anc)

end IntervalNode

namespace IntervalTreeIterator

open IntervalNode

/-- The ascent loop of `IntervalTreeIterator.successor`: climb while the
parent is truthy and the current node compares `==` to the parent's right
child; return the parent (or `None` at the root) where the loop stops. -/
def ascend : IntervalNode → List IntervalNode → Except PyErr (Option (IntervalNode × List IntervalNode))
  | _, [] => .ok none
  | node, y :: rest =>
      if !truthy y then .ok (some (y, rest))
      else do
        let b ← beqNode node (rightOf y)
        if b then ascend y rest else .ok (some (y, rest))

/-- Source `IntervalTreeIterator.successor`: minimum of the right subtree when the
right child reference is truthy, otherwise the ascent via parents. -/
def successorZ (node : IntervalNode) (anc : List IntervalNode) :
    Except PyErr (Option (IntervalNode × List IntervalNode)) :=
  if truthy (rightOf node) then .ok (some (minimumZ (rightOf node) (node :: anc)))
  else ascend node anc

/-- Iterator state: lazily initialized flag, current node with its ancestor
chain (`None` once the walk is exhausted), pending per-node output queue. -/
structure IterState where
  started : Bool
  node : Option (IntervalNode × List IntervalNode)
  queue : List Interval
deriving DecidableEq, Repr

def IterState.init : IterState := ⟨false, none, []⟩

/-- Source `IntervalTreeIterator.node_to_queue`: drain the node's own map into a
queue; a `None` or falsy (empty-map) node contributes nothing. -/
def nodeToQueue : Option (IntervalNode × List IntervalNode) → List Interval
  | none => []
  | some (n, _) => if truthy n then ownItems n else []

/-- The part of `IntervalTreeIterator.has_next` that runs after the lazy
initialization: report a non-empty queue, otherwise advance to the
successor node once and report whether its queue is non-empty. -/
def hasNextCont (st : IterState) : Except PyErr (Bool × IterState) :=
  if !st.queue.isEmpty then .ok (true, st)
  else
    match st.node with
    | none => .error .attributeError
    | some (n, anc) => do
        let succ ← successorZ n anc
        return (!(nodeToQueue succ).isEmpty, { st with node := succ, queue := nodeToQueue succ })

/-- Source `IntervalTreeIterator.has_next`: on the first call, position the cursor
at the minimum node of a truthy root (a falsy root ends the iteration at
once), then continue as `hasNextCont`. -/
def hasNextStep (root : IntervalNode) (st : IterState) : Except PyErr (Bool × IterState) :=
  if !st.started then
    if truthy root then
      let z := minimumZ root []
      hasNextCont ⟨true, some z, nodeToQueue (some z)⟩
    else .ok (false, st)
  else hasNextCont st

/-- Source `IntervalTreeIterator.__next__`: pop from the queue when `has_next`
holds, otherwise signal `StopIteration` (modelled as `none`). -/
def nextStep (root : IntervalNode) (st : IterState) :
    Except PyErr (Option Interval × IterState) := do
  let (hn, st) ← hasNextStep root st
  if hn then
    match st.queue with
    | q :: qs => .ok (some q, { st with queue := qs })
    | [] => .error .attributeError
  else .ok (none, st)

/-- Drain the iterator to a list (fuel bounds the number of `__next__`
calls; exhaustion stands for non-termination). -/
def iterColl : Nat → IntervalNode → IterState → Except PyErr (List Interval)
  | 0, _, _ => .error .recursionError
  | fuel + 1, root, st => do
      let (res, st) ← nextStep root st
      match res with
      | none => .ok []
      | some i => do
          let rest ← iterColl fuel root st
          return i :: rest

/-- Source `IntervalTree.__iter__` of `_tree.py` followed by full consumption of
the returned `IntervalTreeIterator`. -/
def iterTree (fuel : Nat) (t : IntervalTree) : Except PyErr (List Interval) := do
  let t ← t.buildStep fuel
  iterColl fuel t._head IterState.init

end IntervalTreeIterator

/-! Concrete interval values used to evaluate the model. -/

/-- An interval with integer bounds and an identity tag. -/
def iv (tag : Nat) (b e : Int) : Interval := ⟨tag, Q.ofInt b, Q.ofInt e⟩

/-- Five disjoint intervals whose construction produces internal nodes with
empty own maps (partition centers 33, then 4 on the left and 46 on the
right, splitting both two-element buckets entirely into children). -/
def sample5 : List Interval := [iv 0 0 2, iv 1 6 8, iv 2 32 34, iv 3 40 42, iv 4 50 52]

/-- Source `sample5` without its first interval, used for the insert scenario. -/
def sample4 : List Interval := [iv 1 6 8, iv 2 32 34, iv 3 40 42, iv 4 50 52]

/-! Small reduction lemmas for the `Except` monad. -/

theorem exbind_ok {ε α β : Type} (a : α) (f : α → Except ε β) :
    (Except.ok a : Except ε α) >>= f = f a := rfl

theorem exbind_error {ε α β : Type} (e : ε) (f : α → Except ε β) :
    (Except.error e : Except ε α) >>= f = .error e := rfl

theorem Q.not_lt_of_le {a b : Q} (h : a ≤ b) : ¬ b < a := by
  have h1 : a.num * (b.den : Int) ≤ b.num * (a.den : Int) := h
  intro hlt
  have h2 : b.num * (a.den : Int) < a.num * (b.den : Int) := hlt
  omega

/-- Source `IntervalTree.build` leaves a tree it returned in sync, so running it
again on its own result is the identity. -/
theorem buildStep_of_ok {fuel : Nat} {t t2 : IntervalTree}
    (h : IntervalTree.buildStep fuel t = .ok t2) :
    IntervalTree.buildStep fuel t2 = .ok t2 := by
  unfold IntervalTree.buildStep at h ⊢
  by_cases hs : t._in_sync
  · rw [if_pos hs] at h
    cases h
    rw [if_pos hs]
  · rw [if_neg hs] at h
    cases hb : IntervalNode.build fuel t._intervals with
    | error e => rw [hb, exbind_error] at h; cases h
    | ok head =>
        rw [hb, exbind_ok] at h
        cases h
        rfl

/-! The claims. -/

/-- C1.  The construction recursion of `IntervalNode.__init__` does *not*
terminate on every finite input: for the single unit interval `(0, 1)` the
center is `floor(median({0, 1})) = 0`, so `begin >= center` sends the whole
input into the right bucket and the recursive call receives the same
one-interval list again; no amount of fuel (recursion depth) completes the
build, which is a `RecursionError` in Python. -/
theorem build_unit_interval_never_terminates :
    ∀ fuel : Nat, IntervalNode.build fuel [iv 0 0 1] = .error .recursionError := by
  intro fuel
  induction fuel with
  | zero => rfl
  | succ n ih =>
      have key : IntervalNode.build (n + 1) [iv 0 0 1] =
          ((IntervalNode.build n [iv 0 0 1]) >>= fun rnode =>
            pure (IntervalNode.mk [] (some (Q.ofInt 0)) .nil rnode)) := rfl
      rw [key, ih, exbind_error]

/-- C2.  Point-search correctness fails on a successfully built tree: in the
tree built from `sample5`, the interval `(0, 2)` is stored and contains the
position `1` (`2 >= 1 > 0`), yet `search(1)` returns the empty list — the
root's left child has an empty own map, so the Python truthiness test
`if position < self._center and self.left:` skips the entire left subtree. -/
theorem search_misses_stored_interval :
    (do
      let t ← IntervalTree.ofList 9 sample5
      IntervalTree.search 9 t 1) = .ok []
    ∧ (IntervalTree.ofList 9 sample5).map (fun t => t._head.allIntervals) = .ok sample5
    ∧ iv 0 0 2 ∈ sample5
    ∧ (iv 0 0 2).containsB 1 = true := by
  refine ⟨by decide, by decide, by decide, by decide⟩

/-- C3.  Range-overlap correctness fails the same way: in the tree built
from `sample5`, the stored interval `(0, 2)` intersects the query `(1, 2)`
(`2 > 0 and 1 < 2`), yet `get_overlaps(1, 2)` returns the empty list — the
falsy empty-map left child is never visited. -/
theorem get_overlaps_misses_stored_interval :
    (do
      let t ← IntervalTree.ofList 9 sample5
      IntervalTree.get_overlaps 9 t 1 2) = .ok []
    ∧ (IntervalTree.ofList 9 sample5).map (fun t => t._head.allIntervals) = .ok sample5
    ∧ iv 0 0 2 ∈ sample5
    ∧ (iv 0 0 2).intersectsB 1 2 = true := by
  refine ⟨by decide, by decide, by decide, by decide⟩

/-- C4.  The iteration-order law fails: `sample5` is already sorted by
`(begin, end)`, but full forward iteration over the tree built from it
yields only `[(32, 34)]` — `minimum` stops at the root because the left
child is falsy (empty own map), and the first successor step gives up for
the same reason. -/
theorem iteration_skips_stored_intervals :
    (do
      let t ← IntervalTree.ofList 9 sample5
      IntervalTreeIterator.iterTree 30 t) = .ok [iv 2 32 34]
    ∧ List.insertionSort keyLe sample5 = sample5
    ∧ sample5 ≠ [iv 2 32 34] := by
  refine ⟨by decide, by decide, by decide⟩

/-- C5.  Querying an empty tree *is* an error: the empty root never sets
`_center` in `__init__`, so `search`, `get_overlaps` and `fuzzy_query`
(even with the valid coverage 1) all raise `AttributeError` when they read
`self._center`. -/
theorem empty_tree_queries_raise_attribute_error :
    (do
      let t ← IntervalTree.ofList 1 []
      IntervalTree.search 1 t 0) = .error .attributeError
    ∧ (do
      let t ← IntervalTree.ofList 1 []
      IntervalTree.get_overlaps 1 t 0 5) = .error .attributeError
    ∧ (do
      let t ← IntervalTree.ofList 1 []
      IntervalTree.fuzzy_query 1 t 0 5 1) = .error .attributeError := by
  refine ⟨by decide, by decide, by decide⟩

/-- C6.  The coverage guard `if 0 < coverage > 1` is a Python chained
comparison, equivalent to `0 < coverage and coverage > 1`: it never fires
for a negative coverage.  With `coverage = -1`, which lies outside `[0,1]`,
`fuzzy_query` raises nothing and happily returns a result. -/
theorem negative_coverage_not_rejected :
    (do
      let t ← IntervalTree.ofList 3 [iv 0 0 2]
      IntervalTree.fuzzy_query 3 t 0 2 (-1)) = .ok [iv 0 0 2]
    ∧ ((-1 : Q) < 0) := by
  refine ⟨by decide, by decide⟩

/-- C9.  Insert visibility fails: starting from the tree over `sample4`,
inserting `(0, 2)` and then querying `search(1)` does trigger the lazy
rebuild (the rebuilt tree stores the new interval), yet the result misses
the inserted interval although it contains the position — the rebuilt left
subtree again has a falsy empty-map root. -/
theorem insert_visibility_fails_after_rebuild :
    (do
      let t ← IntervalTree.ofList 9 sample4
      IntervalTree.search 9 (t.insert (iv 5 0 2)) 1) = .ok []
    ∧ (do
        let t ← IntervalTree.ofList 9 sample4
        IntervalTree.buildStep 9 (t.insert (iv 5 0 2))).map
          (fun (t2 : IntervalTree) => decide (iv 5 0 2 ∈ t2._head.allIntervals)) = .ok true
    ∧ (iv 5 0 2).containsB 1 = true := by
  refine ⟨by decide, by decide, by decide⟩

/-- C10.  Iterating the `_itree.py` tree object itself is degenerate:
`__iter__` returns the tree and `__next__` (whose body is `pass`) returns
`None` on every call and never raises `StopIteration`, for every tree. -/
theorem tree_self_iteration_yields_none_forever :
    ∀ t : IntervalTree,
      t.iterSelf = t
      ∧ t.nextImpl = .value none
      ∧ t.nextImpl ≠ .stopIteration := by
  intro t
  refine ⟨rfl, rfl, by simp [IntervalTree.nextImpl]⟩

/-! Helper lemmas towards the partition-completeness claim: the flattening
of the grouped, sorted own map of a node is a permutation of the inner
bucket, and the three partition buckets are the three filters of the
classification rule. -/

theorem count_filter_bool {α : Type} [DecidableEq α] (p : α → Bool) (a : α) (l : List α) :
    List.count a (l.filter p) = if p a then List.count a l else 0 := by
  by_cases h : p a = true
  · rw [if_pos h, List.count_filter h]
  · rw [if_neg h, List.count_eq_zero]
    intro hmem
    exact h (List.mem_filter.mp hmem).2

theorem count_flatGroups (inner : List Interval) (a : Interval) (ks : List Interval) :
    List.count a (ks.flatMap fun k => inner.filter fun i => Interval.beq i k)
      = (ks.countP fun k => Interval.beq a k) * List.count a inner := by
  induction ks with
  | nil => simp
  | cons k ks ih =>
      simp only [List.flatMap_cons, List.count_append, ih, List.countP_cons,
        count_filter_bool]
      by_cases h : Interval.beq a k = true
      · rw [if_pos h, if_pos h]
        ring
      · rw [if_neg h, if_neg h]
        ring

theorem countP_dedupKeys (a : Interval) (l : List Interval)
    (hex : ∃ x ∈ l, Interval.beq a x = true) :
    ((dedupKeys l).countP fun k => Interval.beq a k) = 1 := by
  induction l with
  | nil =>
      obtain ⟨x, hx, _⟩ := hex
      cases hx
  | cons x xs ih =>
      simp only [dedupKeys, List.countP_cons, List.countP_filter]
      by_cases hax : Interval.beq a x = true
      · rw [if_pos hax]
        have hz : ((dedupKeys xs).countP fun j => Interval.beq a j && !Interval.beq j x) = 0 := by
          rw [List.countP_eq_zero]
          intro j hj hcon
          obtain ⟨haj, hjx⟩ := Bool.and_eq_true_iff.mp hcon
          rw [Interval.beq_trans (Interval.beq_symm haj) hax] at hjx
          cases hjx
        rw [hz]
      · rw [if_neg hax]
        have heq : ((dedupKeys xs).countP fun j => Interval.beq a j && !Interval.beq j x)
            = ((dedupKeys xs).countP fun j => Interval.beq a j) := by
          apply List.countP_congr
          intro j hj
          constructor
          · intro hcon
            exact (Bool.and_eq_true_iff.mp hcon).1
          · intro haj
            have hjx : Interval.beq j x = false := by
              cases hcase : Interval.beq j x with
              | false => rfl
              | true => exact absurd (Interval.beq_trans haj hcase) hax
            rw [haj, hjx]
            rfl
        rw [heq, ih]
        obtain ⟨y, hy, hay⟩ := hex
        cases List.mem_cons.mp hy with
        | inl hyx => exact absurd (hyx ▸ hay) hax
        | inr hyxs => exact ⟨y, hyxs, hay⟩

theorem groupSort_flat_perm (inner : List Interval) :
    ((groupSort inner).flatMap fun e => e.2).Perm inner := by
  rw [List.perm_iff_count]
  intro a
  rw [groupSort, List.flatMap_map]
  rw [count_flatGroups]
  by_cases hmem : a ∈ inner
  · have h1 : ((List.insertionSort keyLe (dedupKeys inner)).countP
        fun k => Interval.beq a k) = 1 := by
      rw [(List.perm_insertionSort keyLe (dedupKeys inner)).countP_eq]
      exact countP_dedupKeys a inner ⟨a, hmem, Interval.beq_refl a⟩
    rw [h1, Nat.one_mul]
  · rw [List.count_eq_zero.mpr hmem, Nat.mul_zero]

theorem partition_eq_filters (c : Q) (ivs : List Interval) :
    partition c ivs =
      (ivs.filter fun i => decide (i.«end» < c),
       ivs.filter fun i => !decide (i.«end» < c) && !decide (c ≤ i.begin),
       ivs.filter fun i => !decide (i.«end» < c) && decide (c ≤ i.begin)) := by
  induction ivs with
  | nil => rfl
  | cons i rest ih =>
      simp only [partition, ih, List.filter_cons]
      by_cases h1 : i.«end» < c
      · simp [h1]
      · by_cases h2 : c ≤ i.begin
        · simp [h1, h2]
        · simp [h1, h2]

theorem filter3_perm {α : Type} [DecidableEq α] (p q : α → Bool) (l : List α) :
    (l.filter p ++ l.filter (fun i => !p i && !q i)
      ++ l.filter (fun i => !p i && q i)).Perm l := by
  rw [List.perm_iff_count]
  intro a
  rw [List.count_append, List.count_append, count_filter_bool, count_filter_bool,
    count_filter_bool]
  by_cases hp : p a = true
  · simp [hp]
  · by_cases hq : q a = true
    · simp [hp, hq]
    · simp [hp, hq]

theorem partition_flat_perm (c : Q) (l : List Interval) :
    ((partition c l).1 ++ (partition c l).2.1 ++ (partition c l).2.2).Perm l := by
  rw [partition_eq_filters]
  exact filter3_perm _ _ l

/-- One unfolding of the recursive case of `IntervalNode.build`. -/
theorem build_succ_eq (n : Nat) (i : Interval) (rest : List Interval) :
    IntervalNode.build (n + 1) (i :: rest) =
      ((if (partition (get_center (i :: rest)) (i :: rest)).1.isEmpty
          then pure IntervalNode.nil
          else IntervalNode.build n (partition (get_center (i :: rest)) (i :: rest)).1)
        >>= fun lnode =>
      (if (partition (get_center (i :: rest)) (i :: rest)).2.2.isEmpty
          then pure IntervalNode.nil
          else IntervalNode.build n (partition (get_center (i :: rest)) (i :: rest)).2.2)
        >>= fun rnode =>
      pure (IntervalNode.mk
        (groupSort (partition (get_center (i :: rest)) (i :: rest)).2.1)
        (some (get_center (i :: rest))) lnode rnode)) := rfl

/-- A successful build stores exactly the input intervals (as a multiset). -/
theorem build_perm (fuel : Nat) :
    ∀ (ivs : List Interval) (t : IntervalNode),
      IntervalNode.build fuel ivs = .ok t → (IntervalNode.allIntervals t).Perm ivs := by
  induction fuel with
  | zero =>
      intro ivs t h
      cases ivs with
      | nil =>
          cases h
          simp [IntervalNode.allIntervals]
      | cons i rest => cases h
  | succ n ih =>
      intro ivs t h
      cases ivs with
      | nil =>
          cases h
          simp [IntervalNode.allIntervals]
      | cons i rest =>
          rw [build_succ_eq] at h
          have hchild : ∀ (L : List Interval) (node : IntervalNode),
              ((if L.isEmpty then pure IntervalNode.nil else IntervalNode.build n L)
                = Except.ok node) → (IntervalNode.allIntervals node).Perm L := by
            intro L node he
            by_cases hEmp : L.isEmpty
            · rw [if_pos hEmp] at he
              cases he
              rw [List.isEmpty_iff.mp hEmp]
              simp [IntervalNode.allIntervals]
            · rw [if_neg hEmp] at he
              exact ih L node he
          cases e1 : (if (partition (get_center (i :: rest)) (i :: rest)).1.isEmpty
              then pure IntervalNode.nil
              else IntervalNode.build n (partition (get_center (i :: rest)) (i :: rest)).1) with
          | error ε => rw [e1, exbind_error] at h; cases h
          | ok lnode =>
              rw [e1, exbind_ok] at h
              cases e2 : (if (partition (get_center (i :: rest)) (i :: rest)).2.2.isEmpty
                  then pure IntervalNode.nil
                  else IntervalNode.build n
                    (partition (get_center (i :: rest)) (i :: rest)).2.2) with
              | error ε => rw [e2, exbind_error] at h; cases h
              | ok rnode =>
                  rw [e2, exbind_ok] at h
                  cases h
                  have h1 := hchild _ lnode e1
                  have h2 := hchild _ rnode e2
                  exact List.Perm.trans
                    (List.Perm.append (List.Perm.append h1 (groupSort_flat_perm _)) h2)
                    (partition_flat_perm (get_center (i :: rest)) (i :: rest))

/-- C8.  Partition completeness: (i) the construction partition assigns
each input interval to exactly one of (left bucket, this node's own map,
right bucket) by the classification rule — `end < center` to the left,
otherwise `begin >= center` to the right, otherwise to this node — the
buckets being exactly the filters of these three mutually exclusive and
exhaustive predicates; and (ii) recursively, whenever a build succeeds, the
multiset of intervals stored across the whole resulting tree equals the
construction input exactly. -/
theorem build_partition_exact :
    (∀ (c : Q) (ivs : List Interval),
      partition c ivs =
        (ivs.filter fun i => decide (i.«end» < c),
         ivs.filter fun i => !decide (i.«end» < c) && !decide (c ≤ i.begin),
         ivs.filter fun i => !decide (i.«end» < c) && decide (c ≤ i.begin)))
    ∧ (∀ (fuel : Nat) (ivs : List Interval) (t : IntervalNode),
        IntervalNode.build fuel ivs = .ok t → (IntervalNode.allIntervals t).Perm ivs) :=
  ⟨partition_eq_filters, build_perm⟩

theorem build_partition_exact_witness :
    partition (Q.ofInt 1) [iv 0 0 2] = ([], [iv 0 0 2], [])
    ∧ (IntervalNode.allIntervals
        (IntervalNode.mk [(iv 0 0 2, [iv 0 0 2])] (some (Q.ofInt 1)) .nil .nil)).Perm
        [iv 0 0 2] :=
  ⟨(build_partition_exact.1 (Q.ofInt 1) [iv 0 0 2]).trans (by decide),
   build_partition_exact.2 5 [iv 0 0 2]
     (IntervalNode.mk [(iv 0 0 2, [iv 0 0 2])] (some (Q.ofInt 1)) .nil .nil) (by decide)⟩

/-- C7.  For any tree, query bounds `begin < end` and coverage in `[0,1]`
(so the guard does not fire), with `m` the boundary margin: whenever the
range query over the distal range `(begin - m, end + m)` yields a result
list, `fuzzy_query` returns exactly that list filtered to the intervals
with `interval.begin <= begin + m` and `interval.end >= end - m`, in
order.  The result is insensitive to the margin helper's formula: the same
`m` appears on both sides. -/
theorem fuzzy_query_eq_filtered_distal_overlaps
    (fuel : Nat) (t : IntervalTree) (b e c : Q) (res : List Interval)
    (_hbe : b < e) (_h0 : 0 ≤ c) (h1 : c ≤ 1)
    (hres : IntervalTree.get_overlaps fuel t
        (b - get_boundary_margin b e c) (e + get_boundary_margin b e c) = .ok res) :
    IntervalTree.fuzzy_query fuel t b e c =
      .ok (res.filter fun interval =>
        decide (interval.begin ≤ b + get_boundary_margin b e c)
          && decide (e - get_boundary_margin b e c ≤ interval.«end»)) := by
  have hguard : ¬(0 < c ∧ 1 < c) := fun hc => Q.not_lt_of_le h1 hc.2
  simp only [IntervalTree.fuzzy_query, if_neg hguard]
  simp only [IntervalTree.get_overlaps] at hres
  cases hb : IntervalTree.buildStep fuel t with
  | error ε => rw [hb, exbind_error] at hres; cases hres
  | ok t2 =>
      rw [hb, exbind_ok] at hres
      rw [exbind_ok]
      simp only [IntervalTree.get_overlaps]
      rw [buildStep_of_ok hb, exbind_ok, hres, exbind_ok]
      rfl

/-- A one-interval tree in sync with its backing sequence. -/
def oneTree : IntervalTree :=
  ⟨[iv 0 0 2], IntervalNode.mk [(iv 0 0 2, [iv 0 0 2])] (some (Q.ofInt 1)) .nil .nil, true, 1⟩

theorem fuzzy_query_eq_filtered_distal_overlaps_witness :
    ((0 : Q) < 2) ∧ ((0 : Q) ≤ 1) ∧ ((1 : Q) ≤ 1)
    ∧ IntervalTree.fuzzy_query 3 oneTree 0 2 1 =
      .ok ([iv 0 0 2].filter fun interval =>
        decide (interval.begin ≤ 0 + get_boundary_margin 0 2 1)
          && decide (2 - get_boundary_margin 0 2 1 ≤ interval.«end»)) :=
  ⟨by decide, by decide, by decide,
    fuzzy_query_eq_filtered_distal_overlaps 3 oneTree 0 2 1 [iv 0 0 2]
      (by decide) (by decide) (by decide) (by decide)⟩

end Ddalg
